import Mathlib

/-!
Verification development for the bMRI voxel-wise fitting engine.

Shallow embedding of `src/src/Fitting/AbstractFitting.py` (class
`AbstractFitting` with its module-level helpers `fit_pixel`,
`calculate_r2`, `get_r2`) and `src/Fitting/FittingMap.py`
(`FittedMap.__call__`).

Modelling conventions:
* numpy float64 values are modelled as `ℚ` (exact arithmetic); the places
  where IEEE non-finite values are semantically load-bearing (the R² value
  and the `min_r2` threshold) use the four-point type `FVal` with an
  IEEE-faithful `>` comparison.
* Arrays are flat `List`s; a volume is the list of per-voxel time series
  (row-major flattening of the spatial axes, so flat index 0 is the spatial
  corner voxel `(0,0,0)`).
* Python exceptions are modelled with `Except PyErr`; the `try/except
  (RuntimeError, ValueError)` in `fit_pixel` catches exactly those two
  constructors.
* `scipy.optimize.curve_fit` is an external collaborator and is taken as an
  abstract parameter `cf` receiving the keyword arguments the source builds;
  likewise the model function (`ff`, vectorized over the time vector) and the
  numeric primitives `np.exp` / `np.log` (`fexp` / `flog`, total on the
  arguments the source feeds them: the log argument `y - min y + 1e-4` is
  always positive).
* In-place numpy mutation (`y /= ...` through views of the engine's `dicom`
  array) is modelled by threading the engine array state explicitly;
  `dicom.astype("float64")` always allocates a fresh array, which the
  memory-level model (`fitWithMem`) records by keeping the caller's cell
  separate from the engine's working copy.
-/

/-- IEEE-style float value classification for the quantities where
non-finiteness matters (R² values, the `min_r2` threshold). -/
inductive FVal where
  | fin (q : ℚ)
  | pinf
  | ninf
  | nan
  deriving DecidableEq, Repr

namespace FVal

/-- IEEE `>` on floats: any comparison involving NaN is false. -/
def fgt : FVal → FVal → Bool
  | nan, _ => false
  | _, nan => false
  | fin a, fin b => a > b
  | fin _, pinf => false
  | fin _, ninf => true
  | pinf, pinf => false
  | pinf, _ => true
  | ninf, _ => false

/-- A value is non-finite when it is not `fin q`. -/
def nonFinite : FVal → Bool
  | fin _ => false
  | _ => true

end FVal

/-- Python exception classes relevant to `AbstractFitting.py`. -/
inductive PyErr where
  | runtime
  | value
  | index
  | typeErr
  | assertion
  | other
  deriving DecidableEq, Repr

/-- The keyword-argument dictionary handed to `scipy.optimize.curve_fit`.
The three keys the source writes (`xtol`, `p0`, `bounds`) are explicit
fields; any further caller-supplied options are kept in `extra`. -/
structure Kwargs where
  xtol : Option ℚ
  p0 : Option (List ℚ)
  bnds : Option (List ℚ × List ℚ)
  extra : List (String × ℚ)
  deriving DecidableEq, Repr

/-- Python `dict.update`: entries of the update (`c`, the caller's
`fit_config`) override entries already present. -/
def kwUpdate (k : Kwargs) (c : Kwargs) : Kwargs :=
  ⟨(c.xtol).orElse (fun _ => k.xtol),
   (c.p0).orElse (fun _ => k.p0),
   (c.bnds).orElse (fun _ => k.bnds),
   k.extra ++ c.extra⟩

/-- Model of `np.max` on a nonempty list; raises `ValueError` on an empty array. -/
def npMax (y : List ℚ) : Except PyErr ℚ :=
  match y with
  | [] => .error .value
  | a :: t => .ok (t.foldl max a)

/-- Model of `np.min` on a nonempty list; raises `ValueError` on an empty array. -/
def npMin (y : List ℚ) : Except PyErr ℚ :=
  match y with
  | [] => .error .value
  | a :: t => .ok (t.foldl min a)

/-- Total version of `np.max` (0 on the empty list), used where the source
is only ever reached with nonempty data. -/
def npMaxD (y : List ℚ) : ℚ :=
  match y with
  | [] => 0
  | a :: t => t.foldl max a

/-- Total version of `np.min` (0 on the empty list). -/
def npMinD (y : List ℚ) : ℚ :=
  match y with
  | [] => 0
  | a :: t => t.foldl min a

/-- Elementwise subtraction of equal-length numpy arrays. -/
def sub (a b : List ℚ) : List ℚ := List.zipWith (· - ·) a b

/-- Model of `get_r2(residuals, y)` from `AbstractFitting.py`:
`1 - ss_res / ss_tot`.  When `ss_tot = 0` the float result is non-finite:
`-inf` when `ss_res > 0` (`1 - inf`) and NaN when `ss_res = 0` (`0/0`). -/
def get_r2 (residuals y : List ℚ) : FVal :=
  let ssRes := (residuals.map (fun r => r ^ 2)).sum
  let mean := y.sum / (y.length : ℚ)
  let ssTot := (y.map (fun v => (v - mean) ^ 2)).sum
  if ssTot = 0 then (if ssRes = 0 then .nan else .ninf)
  else .fin (1 - ssRes / ssTot)

section Engine

-- `cf` is `scipy.optimize.curve_fit`, the abstract external solver:
-- time vector `x`, series `y`, keyword dictionary; returns the optimal
-- parameter vector or raises.
variable (cf : List ℚ → List ℚ → Kwargs → Except PyErr (List ℚ))

-- `ff` is the model function (`self.fit_function`), vectorized over the
-- time vector: `ff x params` is the predicted signal at each time point.
variable (ff : List ℚ → List ℚ → List ℚ)

-- `fexp` / `flog` are `np.exp` / `np.log` on the (finite, in-domain)
-- arguments the source feeds them.
variable (fexp flog : ℚ → ℚ)

/-- Model of `calculate_r2(y, fit_function, param, x, normalize)` from
`AbstractFitting.py`.  NOTE the source divides by `y.max()` with **no**
positivity guard (`y /= y.max()`), unlike `fit_pixel`.  The division is an
in-place numpy operation on the caller's array, so the (possibly) rescaled
`y` is returned alongside the R² value. -/
def calculate_r2 (normalize : Bool) (y : List ℚ) (param : List ℚ)
    (x : List ℚ) : FVal × List ℚ :=
  let y := if normalize then y.map (fun v => v / npMaxD y) else y
  let residuals := sub y (ff x param)
  (get_r2 residuals y, y)

/-- The log-domain series `np.log(y - offset_init + 0.0001)` used by the
initial-guess heuristic (the argument is always positive because
`offset_init = min y`). -/
def logvals (offset : ℚ) (y : List ℚ) : List ℚ :=
  y.map (fun v => flog (v - offset + 1 / 10000))

/-- Slope of the degree-1 least-squares fit `np.polyfit(x, z, 1)`.
Arrays of different lengths raise (numpy `TypeError`, "expected x and y to
have same length"), as does an empty `x` ("expected non-empty vector").
For non-degenerate `x` the result is the ordinary-least-squares slope
`Σ (xᵢ - x̄)(zᵢ - z̄) / Σ (xᵢ - x̄)²`; the rank-deficient case
`Σ (xᵢ - x̄)² = 0` is mapped to slope 0 (numpy returns a least-squares
pseudo-solution there; no claim depends on that value). -/
def polyfitSlope (x z : List ℚ) : Except PyErr ℚ :=
  if x.length = z.length then
    match x with
    | [] => .error .typeErr
    | _ :: _ =>
      let n : ℚ := (x.length : ℚ)
      let xbar := x.sum / n
      let zbar := z.sum / n
      let den := (x.map (fun v => (v - xbar) ^ 2)).sum
      let num := (List.zipWith (fun a b => (a - xbar) * (b - zbar)) x z).sum
      if den = 0 then .ok 0 else .ok (num / den)
  else .error .typeErr

/-- List indexing `l[i]`; raises `IndexError` out of range (Python sequence
indexing, as in `bounds[0][2]`). -/
def pyIdx (l : List ℚ) (i : Nat) : Except PyErr ℚ :=
  match l.get? i with
  | some v => .ok v
  | none => .error .index

/-- The `calc_p0` block of `fit_pixel` (lines 172-194): heuristic seed
`[S0_init, exp(t2_t2star_init), offset_init]` with the decay seed clamped
to a ceiling of 5 before exponentiation, then clamped componentwise into
the bounds when bounds are given.  The division `-1.0 / slope` is exact
rational division here; the IEEE case `slope = 0` (where numpy produces
`-inf` and a zero seed) is therefore only faithfully represented for
`slope ≠ 0`, which the theorems assume. -/
def seedP0 (bounds : Option (List ℚ × List ℚ)) (y x : List ℚ) :
    Except PyErr (List ℚ) := do
  let S0init ← npMax y
  let offsetInit ← npMin y
  let slope ← polyfitSlope x (logvals flog offsetInit y)
  let t2init : ℚ := -1 / slope
  let t2init := if t2init > 5 then 5 else t2init
  match bounds with
  | none => pure [S0init, fexp t2init, offsetInit]
  | some (lo, hi) => do
    let l0 ← pyIdx lo 0
    let l1 ← pyIdx lo 1
    let l2 ← pyIdx lo 2
    let p0 := [max S0init l0, max (fexp t2init) l1, max offsetInit l2]
    let u0 ← pyIdx hi 0
    let u1 ← pyIdx hi 1
    let u2 ← pyIdx hi 2
    pure [min (p0.getD 0 0) u0, min (p0.getD 1 0) u1, min (p0.getD 2 0) u2]

/-- Construction of the keyword dictionary in `fit_pixel` (lines 172-204):
`xtol = 1e-6`, the heuristic `p0` when `calc_p0`, then `bounds` when given,
then `kwargs.update(config)` which lets caller-supplied options override
everything already present. -/
def buildKwargs (bounds : Option (List ℚ × List ℚ)) (config : Option Kwargs)
    (calcP0 : Bool) (y x : List ℚ) : Except PyErr Kwargs := do
  let kw : Kwargs ←
    if calcP0 then do
      let p0 ← seedP0 fexp flog bounds y x
      pure ⟨some (1 / 1000000), some p0, none, []⟩
    else
      pure ⟨some (1 / 1000000), none, none, []⟩
  let kw : Kwargs :=
    match bounds with
    | some b => ⟨kw.xtol, kw.p0, some b, kw.extra⟩
    | none => kw
  match config with
  | some c => pure (kwUpdate kw c)
  | none => pure kw

/-- The in-place normalization `y /= np.max(y) if np.max(y) > 0 else 1`
performed by `fit_pixel` (as a total function on the nonempty series the
engine passes). -/
def mutY (normalize : Bool) (y : List ℚ) : List ℚ :=
  if normalize then
    (if npMaxD y > 0 then y.map (fun v => v / npMaxD y) else y)
  else y

/-- Model of `fit_pixel(y, x, fit_function, bounds, config, normalize, calc_p0)`.
Returns the fitted parameters (or `none`, the FAILURE sentinel, when
`curve_fit` raises `RuntimeError` or `ValueError`) together with the final
state of `y` (which the normalization step mutates in place).  Only the
`curve_fit` call sits inside the `try/except (RuntimeError, ValueError)`;
exceptions anywhere else — including the whole initial-guess block —
propagate. -/
def fit_pixel (bounds : Option (List ℚ × List ℚ)) (config : Option Kwargs)
    (normalize : Bool) (calcP0 : Bool) (y x : List ℚ) :
    Except PyErr (Option (List ℚ) × List ℚ) := do
  let y ←
    if normalize then do
      let m ← npMax y
      pure (if m > 0 then y.map (fun v => v / m) else y)
    else pure y
  let kw ← buildKwargs fexp flog bounds config calcP0 y x
  match cf x y kw with
  | .ok param => pure (some param, y)
  | .error .runtime => pure (none, y)
  | .error .value => pure (none, y)
  | .error e => .error e

end Engine

section EngineCore

variable (cf : List ℚ → List ℚ → Kwargs → Except PyErr (List ℚ))
variable (ff : List ℚ → List ℚ → List ℚ)
variable (fexp flog : ℚ → ℚ)

/-- Flat indices of the voxels included by the mask, in `np.nonzero`
(row-major) order. -/
def maskedIdxs (mask : List Bool) : List Nat :=
  (List.range mask.length).filter (fun i => mask.getD i false)

/-- The `pools == 0` solve phase: `[fit_pixel_fixed(*p) for p in pixel_args]`.
Each `fit_pixel` call receives a *view* of the engine's `dicom` copy, so its
in-place normalization writes back into the array state, which is threaded
through the list. -/
def solveSeq (fp : List ℚ → Except PyErr (Option (List ℚ) × List ℚ))
    (st : List (List ℚ)) :
    List Nat → Except PyErr (List (Option (List ℚ)) × List (List ℚ))
  | [] => .ok ([], st)
  | i :: rest => do
    let (r, y2) ← fp (st.getD i [])
    let (rs, st2) ← solveSeq fp (st.set i y2) rest
    .ok (r :: rs, st2)

/-- The `pools > 0` solve phase: `pool.starmap(fit_pixel_fixed, pixel_args)`.
Workers receive pickled copies of the voxel series, so the engine's array is
not written to; only the result list comes back (in submission order,
independently of the worker count `N > 0`). -/
def solvePar (fp : List ℚ → Except PyErr (Option (List ℚ) × List ℚ))
    (st : List (List ℚ)) :
    List Nat → Except PyErr (List (Option (List ℚ)))
  | [] => .ok []
  | i :: rest => do
    let r ← (fp (st.getD i [])).map Prod.fst
    let rs ← solvePar fp st rest
    .ok (r :: rs)

/-- The single-threaded aggregation loop (`AbstractFitting.fit`, lines
107-115) over the `zip(*np.nonzero(mask), pixel_results)` pairs.  For a
FAILURE result (`None`) the voxel is skipped.  Otherwise `calculate_r2` is
evaluated on the engine's (view of the) voxel series — mutating it when
`normalize` — its value is always stored in the R² map, and the parameter
column is written only when `r2 > min_r2` (strict Python `>`).  Returns
`(r2_map, parameter columns, final array state)`; the parameter maps are
kept column-wise (one list of `k` optional entries per voxel, `none` = NaN). -/
def aggregate (normalize : Bool) (minR2 : FVal) (k : Nat) (x : List ℚ) :
    List (Nat × Option (List ℚ)) → List (List ℚ) → List FVal →
    List (List (Option ℚ)) →
    List FVal × List (List (Option ℚ)) × List (List ℚ)
  | [], st, r2m, cols => (r2m, cols, st)
  | (_, none) :: rest, st, r2m, cols =>
    aggregate normalize minR2 k x rest st r2m cols
  | (i, some param) :: rest, st, r2m, cols =>
    let y := st.getD i []
    let res := calculate_r2 ff normalize y param x
    let st := st.set i res.2
    let r2m := r2m.set i res.1
    let cols :=
      if FVal.fgt res.1 minR2 then
        cols.set i ((List.range k).map (fun p => param.get? p))
      else cols
    aggregate normalize minR2 k x rest st r2m cols

/-- The engine flag enabling the initial-guess heuristic
(`AbstractFitting.fit`, lines 87-89): true exactly when
`get_function_parameter(self.fit_function)` has 3 entries. -/
def calcP0Flag (numFnParams : Nat) : Bool := numFnParams == 3

/-- Core of `AbstractFitting.fit` after the shape phase, over the flattened
voxel list.  Steps, in source order: the reference `curve_fit` on the corner
voxel `dicom[:, 0, 0, 0]` with *no* keyword arguments (no bounds, no `p0`,
no caller config) establishes `num_params` and propagates its exceptions;
output maps are initialized to NaN (`none`) and 0; the solver partial
application fixes `bounds`, `config`, `normalize`, `calc_p0`; the solve
phase runs sequentially in-process (`pools0 = true`) or in a worker pool;
aggregation then fills the maps.  Returns
`(parameter columns, r2 map, final engine-array state)`. -/
def fitCore (bounds : Option (List ℚ × List ℚ)) (config : Option Kwargs)
    (normalize : Bool) (numFnParams : Nat) (pools0 : Bool)
    (vol : List (List ℚ)) (mask : List Bool) (x : List ℚ) (minR2 : FVal) :
    Except PyErr (List (List (Option ℚ)) × List FVal × List (List ℚ)) := do
  let refParams ← cf x (vol.getD 0 []) ⟨none, none, none, []⟩
  let k := refParams.length
  let n := mask.length
  let r2m0 : List FVal := List.replicate n (.fin 0)
  let cols0 : List (List (Option ℚ)) :=
    List.replicate n (List.replicate k none)
  let fp := fun y =>
    fit_pixel cf fexp flog bounds config normalize (calcP0Flag numFnParams) y x
  let idxs := maskedIdxs mask
  let (results, st) ←
    if pools0 then solveSeq fp vol idxs
    else do
      let rs ← solvePar fp vol idxs
      pure (rs, vol)
  let out := aggregate ff normalize minR2 k x (idxs.zip results) st r2m0 cols0
  .ok (out.2.1, out.1, out.2.2)

/-- The shape phase of `AbstractFitting.fit` (lines 66-72): assert
`len(mask.shape) == len(dicom.shape) - 1` (stated integer-faithfully as
`mask rank + 1 = dicom rank`), promote a 2-D mask / 3-D volume pair to 3-D /
4-D by appending unit axes, then assert `dicom.shape[0] == len(x)`.  Returns
the (possibly promoted) shapes; an assertion failure raises before any voxel
work. -/
def shapePhase (dicomShape maskShape : List Nat) (xLen : Nat) :
    Except PyErr (List Nat × List Nat) :=
  if maskShape.length + 1 = dicomShape.length then
    let dm :=
      if maskShape.length = 2 then (dicomShape ++ [1], maskShape ++ [1])
      else (dicomShape, maskShape)
    if dm.1.headD 0 = xLen then .ok dm else .error .assertion
  else .error .assertion

/-- Model of `AbstractFitting.fit` with its shape phase: the shape assertions run
(after the `astype` copy) before the reference solve and before any voxel
is dispatched; on success the flattened core runs.  The flat `vol` / `mask`
lists are the row-major flattening of the spatial axes, which the unit-axis
promotion leaves unchanged. -/
def fitFull (bounds : Option (List ℚ × List ℚ)) (config : Option Kwargs)
    (normalize : Bool) (numFnParams : Nat) (pools0 : Bool)
    (dicomShape maskShape : List Nat)
    (vol : List (List ℚ)) (mask : List Bool) (x : List ℚ) (minR2 : FVal) :
    Except PyErr (List (List (Option ℚ)) × List FVal × List (List ℚ)) := do
  let _ ← shapePhase dicomShape maskShape x.length
  fitCore cf ff fexp flog bounds config normalize numFnParams pools0
    vol mask x minR2

/-- Memory cells observable around a `fit` call: the caller's input volume
and the engine's working array.  `dicom = dicom.astype("float64")` always
allocates a fresh array, so the engine's subsequent in-place writes (through
views `dicom[:, i, j, k]`) land in the `engine` cell and never in `caller`. -/
structure Mem where
  caller : List (List ℚ)
  engine : List (List ℚ)
  deriving DecidableEq, Repr

/-- Model of `AbstractFitting.fit` at the memory level: the engine works on the
`astype("float64")` copy of the caller's volume and returns the outputs
together with the final state of both memory cells. -/
def fitWithMem (bounds : Option (List ℚ × List ℚ)) (config : Option Kwargs)
    (normalize : Bool) (numFnParams : Nat) (pools0 : Bool)
    (dicomShape maskShape : List Nat)
    (vol : List (List ℚ)) (mask : List Bool) (x : List ℚ) (minR2 : FVal) :
    Except PyErr ((List (List (Option ℚ)) × List FVal) × Mem) :=
  match fitFull cf ff fexp flog bounds config normalize numFnParams pools0
      dicomShape maskShape vol mask x minR2 with
  | .ok (cols, r2m, stFinal) => .ok ((cols, r2m), ⟨vol, stFinal⟩)
  | .error e => .error e

end EngineCore

/-- numpy `astype('int16')` of a float value: truncation toward zero, then
wraparound into `[-32768, 32767]`, returned as a rational. -/
def i16 (q : ℚ) : ℚ :=
  let t : Int := Int.tdiv q.num q.den
  ((((t + 32768) % 65536 + 65536) % 65536 - 32768 : Int) : ℚ)

/-- Model of `np.percentile(xs, q)` with the default linear interpolation: on the
sorted data `s` of length `n`, the value at rank `h = (n-1)·q/100` is
`s[⌊h⌋] + (h-⌊h⌋)·(s[⌊h⌋+1] - s[⌊h⌋])`.  Raises on an empty selection. -/
def percentile (q : ℚ) (xs : List ℚ) : Except PyErr ℚ :=
  let s := xs.mergeSort (fun a b => a ≤ b)
  match s with
  | [] => .error .value
  | _ :: _ =>
    let n := s.length
    let h : ℚ := ((n : ℚ) - 1) * q / 100
    let i : Nat := h.floor.toNat
    let lo := s.getD i 0
    let hi := s.getD (i + 1) lo
    .ok (lo + (h - (i : ℚ)) * (hi - lo))

/-- The loop body of `FittedMap.__call__` (lines 27-34), iterated over the
label sequence with the *evolving* working mask carried between steps.
The working mask entries are `some v` (a numeric value) or `none` (NaN);
the initial mask holds the region labels, but each iteration rebuilds it as
`np.where(fit_map != 0.0, fit_map, np.nan)`, i.e. as int16-cast map values.
`fit_map[mask != i] = 0` therefore selects, from the second label on,
voxels whose *current mask value* equals the label number (NaN compares
unequal to everything).  An empty selection makes `np.percentile` raise. -/
def refineLoop (lowp upp : ℚ) (fittedMap : List ℚ) :
    List (Option ℚ) → List Nat → Except PyErr (List (Option ℚ))
  | mask, [] => .ok mask
  | mask, i :: rest => do
    let fm := fittedMap.map i16
    let fm := List.zipWith
      (fun mv v => if mv = some ((i : ℚ)) then v else 0) mask fm
    let sel := (List.zip mask fm).filterMap
      (fun p => if p.1 = some ((i : ℚ)) then some p.2 else none)
    let low ← percentile lowp sel
    let up ← percentile upp sel
    let fm := fm.map (fun v => if v < low then 0 else v)
    let fm := fm.map (fun v => if v > up then 0 else v)
    let mask2 := fm.map (fun v => if v ≠ 0 then some v else none)
    refineLoop lowp upp fittedMap mask2 rest

/-- Model of `FittedMap.__call__` on in-memory arrays (flattened): labels
`1 .. int(mask.max())` are processed in ascending order by `refineLoop`,
and the function returns the pair `(fitted_map, mask)` — the *untouched*
input map together with the final working mask.

Modelled from the spec: the DICOM/NIfTI loading (`get_dcm_array`,
`load_nii` from the `Utilitis` package, absent from `src/`) is abstracted
away; per spec §3 the loaded mask is an integer-labeled array (labels
`1..L`, 0 = excluded) and the loaded map a numeric array. -/
def fittedMapCall (lowp upp : ℚ) (fittedMap : List ℚ)
    (maskLabels : List Nat) : Except PyErr (List ℚ × List (Option ℚ)) := do
  let maxLabel := maskLabels.foldl max 0
  let mask0 : List (Option ℚ) := maskLabels.map (fun (l : Nat) => some ((l : ℚ)))
  let mk ← refineLoop lowp upp fittedMap mask0 (List.range' 1 maxLabel)
  .ok (fittedMap, mk)

section SpecSide

variable (ff : List ℚ → List ℚ → List ℚ)

/-- The Goodness-of-Fit Evaluator as the spec's words describe it (for
comparison with the source's `calculate_r2`): residual `y - model(x, p)`
with `y` first rescaled *exactly as at fit time* — divided by its max, a
no-op if the max is ≤ 0. -/
def specScore (normalize : Bool) (y : List ℚ) (param : List ℚ)
    (x : List ℚ) : FVal :=
  let y := if normalize then
      (if npMaxD y > 0 then y.map (fun v => v / npMaxD y) else y)
    else y
  get_r2 (sub y (ff x param)) y

end SpecSide

/-- The values `fit_map[mask == i]` selected in an iteration of
`FittedMap.__call__` whose working mask still holds the original labels:
the int16-cast map values at the voxels carrying label `i`. -/
def labelVals (m : List ℚ) (labels : List Nat) (i : Nat) : List ℚ :=
  (List.zip labels m).filterMap
    (fun p => if p.1 = i then some (i16 p.2) else none)

/-- Per-voxel effect of one `FittedMap.__call__` iteration on a mask still
holding the original labels, at percentile bounds `low`/`up`: out-of-region
voxels become 0 and drop out; in-region voxels keep their int16-cast value
when it survives both threshold assignments and is nonzero. -/
def refStep (low up : ℚ) (l : Nat) (v : ℚ) : Option ℚ :=
  let w : ℚ := if some ((l : ℚ)) = some (((1 : Nat) : ℚ)) then i16 v else 0
  let w1 := if w < low then 0 else w
  let w2 := if w1 > up then 0 else w1
  if w2 ≠ 0 then some w2 else none

/-- A `curve_fit` stand-in that always succeeds with the single parameter 0
(used to instantiate the abstract solver on concrete inputs). -/
def cfOk0 : List ℚ → List ℚ → Kwargs → Except PyErr (List ℚ) :=
  fun _ _ _ => .ok [0]

/-- A model function that predicts 0 at every time point. -/
def ffZero : List ℚ → List ℚ → List ℚ := fun x _ => x.map (fun _ => 0)

/-- A model function that predicts 1 at every time point. -/
def ffOne : List ℚ → List ℚ → List ℚ := fun x _ => x.map (fun _ => 1)

/-- A `curve_fit` stand-in that reports back the seed `p0` it received
(to observe what the solver was actually passed). -/
def cfProbe : List ℚ → List ℚ → Kwargs → Except PyErr (List ℚ) :=
  fun _ _ kw =>
    match kw.p0 with
    | some v => .ok v
    | none => .error .other

/-- A `curve_fit` stand-in that fails (non-convergence) exactly on the
bare reference call, recognizable by its empty keyword dictionary. -/
def cfRefFail : List ℚ → List ℚ → Kwargs → Except PyErr (List ℚ) :=
  fun _ _ kw =>
    match kw.xtol with
    | none => .error .runtime
    | some _ => .ok [1]

/-- A `curve_fit` stand-in that always reports non-convergence. -/
def cfFail : List ℚ → List ℚ → Kwargs → Except PyErr (List ℚ) :=
  fun _ _ _ => .error .runtime

/-- Reading `getD` after `set` at the written index (in-range). -/
lemma getD_set_self {α : Type} (l : List α) (i : Nat) (v d : α)
    (h : i < l.length) : (l.set i v).getD i d = v := by
  simp [List.getD_eq_getElem?_getD, List.getElem?_set_self h]

/-- Reading `getD` after `set` at a different index. -/
lemma getD_set_ne {α : Type} (l : List α) {i j : Nat} (v d : α)
    (h : i ≠ j) : (l.set i v).getD j d = l.getD j d := by
  simp [List.getD_eq_getElem?_getD, List.getElem?_set_ne h]

/-- Folding `max` commutes with division by a nonnegative constant. -/
lemma foldl_max_div (c : ℚ) (hc : 0 ≤ c) (t : List ℚ) :
    ∀ a : ℚ, (t.map (fun v => v / c)).foldl max (a / c) =
      (t.foldl max a) / c := by
  induction t with
  | nil => intro a; rfl
  | cons b t ih =>
    intro a
    simpa [List.foldl_cons, max_div_div_right hc] using ih (max a b)

/-- The maximum `np.max` commutes with division by a nonnegative constant. -/
lemma npMaxD_map_div (y : List ℚ) (c : ℚ) (hc : 0 ≤ c) :
    npMaxD (y.map (fun v => v / c)) = npMaxD y / c := by
  cases y with
  | nil => simp [npMaxD]
  | cons a t => simpa [npMaxD] using foldl_max_div c hc t a

/-- Rescaling a series by its own positive max gives max 1. -/
lemma npMaxD_self_div (y : List ℚ) (h : 0 < npMaxD y) :
    npMaxD (y.map (fun v => v / npMaxD y)) = 1 := by
  rw [npMaxD_map_div y (npMaxD y) h.le, div_self h.ne']

/-- The evaluator `calculate_r2` is insensitive to `fit_pixel`'s guarded in-place
normalization: on an already-normalized series (max 1 when the original max
was positive) its own unconditional division is by 1. -/
lemma calc_r2_mut (ff : List ℚ → List ℚ → List ℚ) (normalize : Bool)
    (y param x : List ℚ) :
    calculate_r2 ff normalize (mutY normalize y) param x =
      calculate_r2 ff normalize y param x := by
  cases normalize with
  | false => simp [mutY]
  | true =>
    by_cases h : 0 < npMaxD y
    · have h1 : npMaxD (y.map (fun v => v / npMaxD y)) = 1 :=
        npMaxD_self_div y h
      simp [mutY, if_pos h, calculate_r2, h1, div_one, Function.comp_def]
    · simp [mutY, h]

/-- On success, the series returned by `fit_pixel` is the input series
after the solver's guarded in-place normalization: `fit_pixel` mutates `y`
exactly by `mutY`. -/
lemma fit_pixel_snd (cf : List ℚ → List ℚ → Kwargs → Except PyErr (List ℚ))
    (fexp flog : ℚ → ℚ) (bounds : Option (List ℚ × List ℚ))
    (config : Option Kwargs) (normalize calcP0 : Bool) (y x : List ℚ)
    (pr : Option (List ℚ) × List ℚ)
    (h : fit_pixel cf fexp flog bounds config normalize calcP0 y x = .ok pr) :
    pr.2 = mutY normalize y := by
  unfold fit_pixel at h
  cases normalize with
  | false =>
    simp only [Bool.false_eq_true, if_false, bind, Except.bind, pure,
      Except.pure, mutY] at h ⊢
    split at h
    · cases h
    · split at h
      · cases h; rfl
      · cases h; rfl
      · cases h; rfl
      · cases h
  | true =>
    cases y with
    | nil => simp [npMax, bind, Except.bind] at h
    | cons a t =>
      simp only [npMax, bind, Except.bind, pure, Except.pure, if_true,
        mutY, npMaxD] at h ⊢
      split at h
      · cases h
      · split at h
        · cases h; rfl
        · cases h; rfl
        · cases h; rfl
        · cases h

/-- Aggregation leaves the R² map and parameter columns untouched at any
index not occurring in the result pairs. -/
lemma aggregate_notin (ff : List ℚ → List ℚ → List ℚ) (normalize : Bool)
    (minR2 : FVal) (k : Nat) (x : List ℚ)
    (prs : List (Nat × Option (List ℚ))) :
    ∀ (st : List (List ℚ)) (r2m : List FVal) (cols : List (List (Option ℚ)))
      (i : Nat) (dF : FVal) (dC : List (Option ℚ)),
      i ∉ prs.map Prod.fst →
      ((aggregate ff normalize minR2 k x prs st r2m cols).1.getD i dF =
         r2m.getD i dF ∧
       (aggregate ff normalize minR2 k x prs st r2m cols).2.1.getD i dC =
         cols.getD i dC ∧
       (aggregate ff normalize minR2 k x prs st r2m cols).2.2.getD i [] =
         st.getD i []) := by
  induction prs with
  | nil => intro st r2m cols i dF dC _; exact ⟨rfl, rfl, rfl⟩
  | cons hd rest ih =>
    intro st r2m cols i dF dC hni
    obtain ⟨j, r⟩ := hd
    simp only [List.map_cons, List.mem_cons, not_or] at hni
    obtain ⟨hij, hni⟩ := hni
    cases r with
    | none => simpa only [aggregate] using ih st r2m cols i dF dC hni
    | some param =>
      simp only [aggregate]
      obtain ⟨h1, h2, h3⟩ := ih
        (st.set j (calculate_r2 ff normalize (st.getD j []) param x).2)
        (r2m.set j (calculate_r2 ff normalize (st.getD j []) param x).1)
        (if FVal.fgt (calculate_r2 ff normalize (st.getD j []) param x).1 minR2
          then cols.set j ((List.range k).map (fun p => param.get? p))
          else cols)
        i dF dC hni
      refine ⟨?_, ?_, ?_⟩
      · rw [h1, getD_set_ne _ _ _ (Ne.symm hij)]
      · rw [h2]
        split
        · rw [getD_set_ne _ _ _ (Ne.symm hij)]
        · rfl
      · rw [h3, getD_set_ne _ _ _ (Ne.symm hij)]

/-- Per-voxel characterization of the single-threaded aggregation: for a
voxel `i` whose solve returned `some param` (indices pairwise distinct),
the final R² map holds the `calculate_r2` value computed on the voxel's
series in the input array state, and the parameter column is the written
parameter vector exactly when that value passes the strict gate
`r2 > min_r2`, the prior column (NaN) otherwise. -/
lemma aggregate_char (ff : List ℚ → List ℚ → List ℚ) (normalize : Bool)
    (minR2 : FVal) (k : Nat) (x : List ℚ)
    (prs : List (Nat × Option (List ℚ))) :
    ∀ (st : List (List ℚ)) (r2m : List FVal) (cols : List (List (Option ℚ)))
      (i : Nat) (param : List ℚ),
      (prs.map Prod.fst).Nodup → (i, some param) ∈ prs →
      i < r2m.length → i < cols.length →
      ((aggregate ff normalize minR2 k x prs st r2m cols).1.getD i (.fin 0) =
         (calculate_r2 ff normalize (st.getD i []) param x).1 ∧
       (aggregate ff normalize minR2 k x prs st r2m cols).2.1.getD i [] =
         (if FVal.fgt (calculate_r2 ff normalize (st.getD i []) param x).1
              minR2
          then (List.range k).map (fun p => param.get? p)
          else cols.getD i [])) := by
  induction prs with
  | nil => intro st r2m cols i param _ hmem; cases hmem
  | cons hd rest ih =>
    intro st r2m cols i param hnd hmem hr hc
    obtain ⟨j, r⟩ := hd
    simp only [List.map_cons, List.nodup_cons] at hnd
    obtain ⟨hjni, hnd⟩ := hnd
    rcases List.mem_cons.mp hmem with heq | hmem2
    · cases heq
      simp only [aggregate]
      obtain ⟨h1, h2, _⟩ := aggregate_notin ff normalize minR2 k x rest
        (st.set i (calculate_r2 ff normalize (st.getD i []) param x).2)
        (r2m.set i (calculate_r2 ff normalize (st.getD i []) param x).1)
        (if FVal.fgt (calculate_r2 ff normalize (st.getD i []) param x).1 minR2
          then cols.set i ((List.range k).map (fun p => param.get? p))
          else cols)
        i (.fin 0) [] hjni
      refine ⟨?_, ?_⟩
      · rw [h1, getD_set_self _ _ _ _ hr]
      · rw [h2]
        split
        · rw [getD_set_self _ _ _ _ hc]
        · rfl
    · have himem : i ∈ rest.map Prod.fst :=
        List.mem_map_of_mem Prod.fst hmem2
      have hji : j ≠ i := fun hh => hjni (hh ▸ himem)
      cases r with
      | none => simpa only [aggregate] using ih st r2m cols i param hnd hmem2 hr hc
      | some q =>
        simp only [aggregate]
        obtain ⟨h1, h2⟩ := ih
          (st.set j (calculate_r2 ff normalize (st.getD j []) q x).2)
          (r2m.set j (calculate_r2 ff normalize (st.getD j []) q x).1)
          (if FVal.fgt (calculate_r2 ff normalize (st.getD j []) q x).1 minR2
            then cols.set j ((List.range k).map (fun p => q.get? p))
            else cols)
          i param hnd hmem2 (by simpa using hr)
          (by split <;> simpa using hc)
        have hset : (st.set j
            (calculate_r2 ff normalize (st.getD j []) q x).2).getD i [] =
            st.getD i [] := getD_set_ne _ _ _ hji
        have hcols2 : (if FVal.fgt
              (calculate_r2 ff normalize (st.getD j []) q x).1 minR2
            then cols.set j ((List.range k).map (fun p => q.get? p))
            else cols).getD i [] = cols.getD i [] := by
          split
          · exact getD_set_ne _ _ _ hji
          · rfl
        rw [hset] at h1 h2
        rw [hcols2] at h2
        exact ⟨h1, h2⟩

/-- The R² map and parameter columns produced by aggregation do not depend
on whether the array state was already normalized in place by the solve
phase: states related voxelwise by `mutY` aggregate to the same outputs. -/
lemma aggregate_mut (ff : List ℚ → List ℚ → List ℚ) (normalize : Bool)
    (minR2 : FVal) (k : Nat) (x : List ℚ)
    (prs : List (Nat × Option (List ℚ))) :
    ∀ (st1 st2 : List (List ℚ)) (r2m : List FVal)
      (cols : List (List (Option ℚ))),
      (prs.map Prod.fst).Nodup →
      (∀ p ∈ prs, st1.getD p.1 [] = mutY normalize (st2.getD p.1 [])) →
      ((aggregate ff normalize minR2 k x prs st1 r2m cols).1 =
         (aggregate ff normalize minR2 k x prs st2 r2m cols).1 ∧
       (aggregate ff normalize minR2 k x prs st1 r2m cols).2.1 =
         (aggregate ff normalize minR2 k x prs st2 r2m cols).2.1) := by
  induction prs with
  | nil => intro st1 st2 r2m cols _ _; exact ⟨rfl, rfl⟩
  | cons hd rest ih =>
    intro st1 st2 r2m cols hnd hrel
    obtain ⟨j, r⟩ := hd
    simp only [List.map_cons, List.nodup_cons] at hnd
    obtain ⟨hjni, hnd⟩ := hnd
    cases r with
    | none =>
      simp only [aggregate]
      exact ih st1 st2 r2m cols hnd (fun p hp => hrel p (List.mem_cons_of_mem _ hp))
    | some param =>
      simp only [aggregate]
      have hj : st1.getD j [] = mutY normalize (st2.getD j []) :=
        hrel (j, some param) (List.mem_cons_self _ _)
      have hcr : calculate_r2 ff normalize (st1.getD j []) param x =
          calculate_r2 ff normalize (st2.getD j []) param x := by
        rw [hj, calc_r2_mut]
      rw [hcr]
      apply ih _ _ _ _ hnd
      intro p hp
      have hpj : p.1 ≠ j := by
        intro hh
        exact hjni (hh ▸ List.mem_map_of_mem Prod.fst hp)
      rw [getD_set_ne _ _ _ (Ne.symm hpj), getD_set_ne _ _ _ (Ne.symm hpj)]
      exact hrel p (List.mem_cons_of_mem _ hp)

/-- The sequential solve phase only writes at the indices it visits. -/
lemma solveSeq_notin (fp : List ℚ → Except PyErr (Option (List ℚ) × List ℚ))
    (idxs : List Nat) :
    ∀ (st : List (List ℚ)) (rs : List (Option (List ℚ)))
      (st2 : List (List ℚ)) (j : Nat), j ∉ idxs →
      solveSeq fp st idxs = .ok (rs, st2) → st2.getD j [] = st.getD j [] := by
  induction idxs with
  | nil =>
    intro st rs st2 j _ h
    simp only [solveSeq] at h
    cases h
    rfl
  | cons i rest ih =>
    intro st rs st2 j hj h
    simp only [List.mem_cons, not_or] at hj
    obtain ⟨hji, hj⟩ := hj
    simp only [solveSeq, bind, Except.bind] at h
    cases hf : fp (st.getD i []) with
    | error e => rw [hf] at h; cases h
    | ok pr =>
      obtain ⟨r, y2⟩ := pr
      rw [hf] at h
      dsimp only at h
      cases hrec : solveSeq fp (st.set i y2) rest with
      | error e => rw [hrec] at h; cases h
      | ok pr2 =>
        rw [hrec] at h
        obtain ⟨rs2, stF⟩ := pr2
        cases h
        rw [ih (st.set i y2) rs2 stF j hj hrec,
          getD_set_ne _ _ _ (fun hh => hji (hh.symm))]

/-- On states that agree at the visited (pairwise distinct, in-range)
indices, the sequential solve phase returns the same results as the
worker-pool solve phase, and its final array state holds the
`mutY`-normalized series at every visited index. -/
lemma solveSeq_spec (fp : List ℚ → Except PyErr (Option (List ℚ) × List ℚ))
    (normalize : Bool)
    (hsnd : ∀ y pr, fp y = .ok pr → pr.2 = mutY normalize y)
    (idxs : List Nat) :
    ∀ (st1 st2 : List (List ℚ)), idxs.Nodup →
      (∀ j ∈ idxs, st1.getD j [] = st2.getD j []) →
      (∀ j ∈ idxs, j < st1.length) →
      ((solveSeq fp st1 idxs).map Prod.fst = solvePar fp st2 idxs ∧
       ∀ rs stF, solveSeq fp st1 idxs = .ok (rs, stF) →
         rs.length = idxs.length ∧
         ∀ j ∈ idxs, stF.getD j [] = mutY normalize (st2.getD j [])) := by
  induction idxs with
  | nil =>
    intro st1 st2 _ _ _
    refine ⟨rfl, fun rs stF h => ?_⟩
    simp only [solveSeq] at h
    cases h
    exact ⟨rfl, fun j hj => absurd hj (List.not_mem_nil j)⟩
  | cons i rest ih =>
    intro st1 st2 hnd hag hlt
    simp only [List.nodup_cons] at hnd
    obtain ⟨hni, hnd⟩ := hnd
    have hsame : fp (st1.getD i []) = fp (st2.getD i []) := by
      rw [hag i (List.mem_cons_self i rest)]
    cases hf : fp (st2.getD i []) with
    | error e =>
      constructor
      · simp only [solveSeq, solvePar, bind, Except.bind, hsame, hf, Except.map]
      · intro rs stF h
        simp only [solveSeq, bind, Except.bind, hsame, hf] at h
        cases h
    | ok pr =>
      obtain ⟨r, y2⟩ := pr
      have hy2 : y2 = mutY normalize (st2.getD i []) :=
        hsnd (st1.getD i []) (r, y2) (hsame.trans hf) |>.trans
          (by rw [hag i (List.mem_cons_self i rest)])
      have hag2 : ∀ j ∈ rest, (st1.set i y2).getD j [] = st2.getD j [] := by
        intro j hj
        have : i ≠ j := fun hh => hni (hh ▸ hj)
        rw [getD_set_ne _ _ _ this, hag j (List.mem_cons_of_mem _ hj)]
      have hlt2 : ∀ j ∈ rest, j < (st1.set i y2).length := by
        intro j hj
        simpa using hlt j (List.mem_cons_of_mem _ hj)
      obtain ⟨ihA, ihB⟩ := ih (st1.set i y2) st2 hnd hag2 hlt2
      constructor
      · simp only [solveSeq, solvePar, bind, Except.bind, hsame, hf, Except.map]
        cases hrec : solveSeq fp (st1.set i y2) rest with
        | error e =>
          rw [hrec] at ihA
          simp only [Except.map] at ihA
          rw [← ihA]
        | ok pr2 =>
          obtain ⟨rs, stF⟩ := pr2
          rw [hrec] at ihA
          simp only [Except.map] at ihA
          rw [← ihA]
      · intro rs0 stF0 h
        simp only [solveSeq, bind, Except.bind, hsame, hf] at h
        cases hrec : solveSeq fp (st1.set i y2) rest with
        | error e => rw [hrec] at h; cases h
        | ok pr2 =>
          obtain ⟨rs, stF⟩ := pr2
          rw [hrec] at h
          cases h
          obtain ⟨hlen, hmut⟩ := ihB rs stF hrec
          refine ⟨by simpa using hlen, fun j hj => ?_⟩
          rcases List.mem_cons.mp hj with rfl | hj2
          · rw [solveSeq_notin fp rest _ rs stF _ hni hrec,
              getD_set_self _ _ _ _ (by simpa using hlt _ (List.mem_cons_self _ _)), hy2]
          · exact hmut j hj2

/-- The masked-voxel index list is duplicate-free. -/
lemma maskedIdxs_nodup (mask : List Bool) : (maskedIdxs mask).Nodup :=
  (List.nodup_range _).filter _

/-- Masked-voxel indices are bounded by the mask length. -/
lemma maskedIdxs_lt (mask : List Bool) :
    ∀ j ∈ maskedIdxs mask, j < mask.length := by
  intro j hj
  have := (List.mem_filter.mp hj).1
  exact List.mem_range.mp this

/-- Sequential and pooled dispatch produce identical parameter maps and R²
maps (the engine-array side effects may differ, but the outputs agree). -/
lemma fitCore_pools (cf : List ℚ → List ℚ → Kwargs → Except PyErr (List ℚ))
    (ff : List ℚ → List ℚ → List ℚ) (fexp flog : ℚ → ℚ)
    (bounds : Option (List ℚ × List ℚ)) (config : Option Kwargs)
    (normalize : Bool) (numFnParams : Nat)
    (vol : List (List ℚ)) (mask : List Bool) (x : List ℚ) (minR2 : FVal)
    (hlen : mask.length ≤ vol.length) :
    (fitCore cf ff fexp flog bounds config normalize numFnParams true
        vol mask x minR2).map (fun t => (t.1, t.2.1)) =
      (fitCore cf ff fexp flog bounds config normalize numFnParams false
        vol mask x minR2).map (fun t => (t.1, t.2.1)) := by
  unfold fitCore
  cases href : cf x (vol.getD 0 []) ⟨none, none, none, []⟩ with
  | error e => simp [bind, Except.bind, Except.map]
  | ok ps =>
    simp only [bind, Except.bind, if_true, Bool.false_eq_true, if_false]
    set fp := fun y =>
      fit_pixel cf fexp flog bounds config normalize
        (calcP0Flag numFnParams) y x with hfp
    have hsnd : ∀ y pr, fp y = .ok pr → pr.2 = mutY normalize y := by
      intro y pr h
      exact fit_pixel_snd cf fexp flog bounds config normalize
        (calcP0Flag numFnParams) y x pr h
    have hlt : ∀ j ∈ maskedIdxs mask, j < vol.length :=
      fun j hj => lt_of_lt_of_le (maskedIdxs_lt mask j hj) hlen
    obtain ⟨hA, hB⟩ := solveSeq_spec fp normalize hsnd (maskedIdxs mask)
      vol vol (maskedIdxs_nodup mask) (fun _ _ => rfl) hlt
    cases hseq : solveSeq fp vol (maskedIdxs mask) with
    | error e =>
      rw [hseq] at hA
      simp only [Except.map] at hA
      rw [← hA]
    | ok pr =>
      obtain ⟨rs, st2⟩ := pr
      rw [hseq] at hA
      simp only [Except.map] at hA
      rw [← hA]
      obtain ⟨hrsl, hmut⟩ := hB rs st2 hseq
      have hfsts : (List.zip (maskedIdxs mask) rs).map Prod.fst =
          maskedIdxs mask :=
        List.map_fst_zip _ _ (le_of_eq hrsl.symm)
      have hndf : ((List.zip (maskedIdxs mask) rs).map Prod.fst).Nodup := by
        rw [hfsts]; exact maskedIdxs_nodup mask
      have hrel : ∀ p ∈ List.zip (maskedIdxs mask) rs,
          st2.getD p.1 [] = mutY normalize (vol.getD p.1 []) := by
        intro p hp
        obtain ⟨h1, _⟩ := List.of_mem_zip hp
        exact hmut p.1 h1
      obtain ⟨hr2, hcols⟩ := aggregate_mut ff normalize minR2 ps.length x
        (List.zip (maskedIdxs mask) rs) st2 vol
        (List.replicate mask.length (.fin 0))
        (List.replicate mask.length (List.replicate ps.length none))
        hndf hrel
      simp only [pure, Except.pure, Except.map]
      rw [hr2, hcols]

/-- Aggregation preserves the invariant that every parameter column has
exactly `k` entries (one per model parameter). -/
lemma aggregate_cols_length (ff : List ℚ → List ℚ → List ℚ)
    (normalize : Bool) (minR2 : FVal) (k : Nat) (x : List ℚ)
    (prs : List (Nat × Option (List ℚ))) :
    ∀ (st : List (List ℚ)) (r2m : List FVal)
      (cols : List (List (Option ℚ))),
      (∀ c ∈ cols, c.length = k) →
      ∀ c ∈ (aggregate ff normalize minR2 k x prs st r2m cols).2.1,
        c.length = k := by
  induction prs with
  | nil => intro st r2m cols hc c hmem; exact hc c hmem
  | cons hd rest ih =>
    intro st r2m cols hc c hmem
    obtain ⟨j, r⟩ := hd
    cases r with
    | none => exact ih st r2m cols hc c (by simpa only [aggregate] using hmem)
    | some param =>
      refine ih _ _ _ ?_ c (by simpa only [aggregate] using hmem)
      intro c2 hc2
      split at hc2
      · rcases List.mem_or_eq_of_mem_set hc2 with hmem2 | rfl
        · exact hc c2 hmem2
        · simp
      · exact hc c2 hc2

/-- The metric `get_r2` never returns `+inf`: its image is a finite value, `-inf`, or
NaN. -/
lemma get_r2_not_pinf (residuals y : List ℚ) :
    get_r2 residuals y ≠ .pinf := by
  simp only [get_r2]
  split
  · split <;> simp
  · simp

/-- Any non-finite value other than `+inf` fails the strict IEEE `>`
comparison against every threshold. -/
lemma fgt_of_nonfinite (v m : FVal) (hnf : v.nonFinite = true)
    (hp : v ≠ .pinf) : FVal.fgt v m = false := by
  cases v with
  | fin q => simp [FVal.nonFinite] at hnf
  | pinf => exact absurd rfl hp
  | ninf => cases m <;> rfl
  | nan => cases m <;> rfl

/-- Reading a full-length parameter vector through `get?` over its index
range reproduces the vector (all entries present). -/
lemma range_map_get (p : List ℚ) :
    (List.range p.length).map (fun i => p.get? i) = p.map some := by
  induction p with
  | nil => rfl
  | cons a t ih =>
    rw [List.length_cons, List.range_succ_eq_map, List.map_cons,
      List.map_map]
    simp only [List.get?_cons_zero, List.map_cons]
    refine congrArg _ ?_
    simpa [Function.comp_def, List.get?_cons_succ] using ih

/-- On the first refiner iteration the working mask still holds the labels,
so the percentile selection is exactly the int16-cast map values of the
voxels labeled `i`. -/
lemma refine_sel_eq (m : List ℚ) (labels : List Nat) (i : Nat) :
    (List.zip (labels.map (fun (l : Nat) => some ((l : ℚ))))
        (List.zipWith (fun mv v => if mv = some ((i : ℚ)) then v else 0)
          (labels.map (fun (l : Nat) => some ((l : ℚ)))) (m.map i16))).filterMap
      (fun p => if p.1 = some ((i : ℚ)) then some p.2 else none) =
    labelVals m labels i := by
  induction labels generalizing m with
  | nil => rfl
  | cons l ls ih =>
    cases m with
    | nil => rfl
    | cons a ms =>
      rw [List.map_cons, List.map_cons, List.zipWith_cons_cons,
        List.zip_cons_cons, List.filterMap_cons]
      unfold labelVals
      rw [List.zip_cons_cons, List.filterMap_cons]
      dsimp only
      by_cases hl : l = i
      · subst hl
        rw [if_pos rfl, if_pos rfl, if_pos rfl]
        exact congrArg _ (ih ms)
      · have hq : ¬(some ((l : ℚ)) = some ((i : ℚ))) := by
          intro h
          exact hl (Nat.cast_injective (Option.some.inj h))
        rw [if_neg hq, if_neg hl]
        exact ih ms

/-- A single-label refiner pass (label list `[1]`, mask still holding the
labels) succeeds once both percentiles of the label-1 selection exist, and
produces the working mask given voxelwise by `refStep`. -/
lemma refineLoop_single (lowp upp : ℚ) (m : List ℚ) (labels : List Nat)
    (low up : ℚ)
    (hlow : percentile lowp (labelVals m labels 1) = .ok low)
    (hup : percentile upp (labelVals m labels 1) = .ok up) :
    refineLoop lowp upp m (labels.map (fun (l : Nat) => some ((l : ℚ)))) [1] =
      .ok (List.zipWith (refStep low up) labels m) := by
  unfold refineLoop
  simp only [bind, Except.bind]
  rw [refine_sel_eq m labels 1, hlow, hup]
  dsimp only
  have h0 : ∀ mk, refineLoop lowp upp m mk [] = .ok mk := fun mk => rfl
  rw [h0]
  refine congrArg _ ?_
  rw [List.map_zipWith, List.map_zipWith, List.map_zipWith,
    List.zipWith_map_left, List.zipWith_map_right]
  rfl

/-- Python indexing succeeds below the length, returning the entry. -/
lemma pyIdx_lt (l : List ℚ) (i : Nat) (h : i < l.length) :
    pyIdx l i = .ok (l.getD i 0) := by
  unfold pyIdx
  cases hg : l.get? i with
  | none => exact absurd (List.get?_eq_none.mp hg) (Nat.not_le.mpr h)
  | some v => rw [List.getD_eq_getElem?_getD, ← List.get?_eq_getElem?, hg]; rfl

/-- The initial-guess block cannot raise on a nonempty series, nonempty
time vector, and (when present) bounds offering at least three lower and
three upper entries. -/
lemma seedP0_ok (fexp flog : ℚ → ℚ) (bounds : Option (List ℚ × List ℚ))
    (y x : List ℚ) (hy : y ≠ []) (hx : x ≠ [])
    (hlen : y.length = x.length)
    (hb : bounds = none ∨ ∃ lo hi, bounds = some (lo, hi) ∧
      3 ≤ lo.length ∧ 3 ≤ hi.length) :
    ∃ p, seedP0 fexp flog bounds y x = .ok p := by
  obtain ⟨a, t, rfl⟩ : ∃ a t, y = a :: t := by
    cases y with
    | nil => exact absurd rfl hy
    | cons a t => exact ⟨a, t, rfl⟩
  obtain ⟨c, xs, rfl⟩ : ∃ c xs, x = c :: xs := by
    cases x with
    | nil => exact absurd rfl hx
    | cons c xs => exact ⟨c, xs, rfl⟩
  have hslope : ∃ s, polyfitSlope (c :: xs)
      (logvals flog (npMinD (a :: t)) (a :: t)) = .ok s := by
    unfold polyfitSlope
    rw [if_pos (by simp only [logvals, List.length_map]; exact hlen.symm)]
    dsimp only
    split
    · exact ⟨0, rfl⟩
    · exact ⟨_, rfl⟩
  obtain ⟨s, hs⟩ := hslope
  unfold seedP0
  simp only [npMax, npMin, bind, Except.bind]
  rw [show npMinD (a :: t) = t.foldl min a from rfl] at hs
  rw [hs]
  dsimp only
  rcases hb with rfl | ⟨lo, hi, rfl, hlo, hhi⟩
  · exact ⟨_, rfl⟩
  · dsimp only
    rw [pyIdx_lt lo 0 (by omega), pyIdx_lt lo 1 (by omega),
      pyIdx_lt lo 2 (by omega)]
    dsimp only
    rw [pyIdx_lt hi 0 (by omega), pyIdx_lt hi 1 (by omega),
      pyIdx_lt hi 2 (by omega)]
    exact ⟨_, rfl⟩

/-- The keyword-dictionary construction cannot raise under the same
conditions. -/
lemma buildKwargs_ok (fexp flog : ℚ → ℚ)
    (bounds : Option (List ℚ × List ℚ)) (config : Option Kwargs)
    (calcP0 : Bool) (y x : List ℚ) (hy : y ≠ []) (hx : x ≠ [])
    (hlen : y.length = x.length)
    (hb : calcP0 = true → bounds = none ∨ ∃ lo hi, bounds = some (lo, hi) ∧
      3 ≤ lo.length ∧ 3 ≤ hi.length) :
    ∃ kw, buildKwargs fexp flog bounds config calcP0 y x = .ok kw := by
  unfold buildKwargs
  cases calcP0 with
  | false =>
    simp only [Bool.false_eq_true, if_false, bind, Except.bind, pure,
      Except.pure]
    cases bounds <;> cases config <;> exact ⟨_, rfl⟩
  | true =>
    obtain ⟨p, hp⟩ := seedP0_ok fexp flog bounds y x hy hx hlen (hb rfl)
    simp only [if_true, bind, Except.bind, pure, Except.pure]
    rw [hp]
    dsimp only
    cases bounds <;> cases config <;> exact ⟨_, rfl⟩

lemma fit_pixel_total
    (cf : List ℚ → List ℚ → Kwargs → Except PyErr (List ℚ))
    (fexp flog : ℚ → ℚ) (bounds : Option (List ℚ × List ℚ))
    (config : Option Kwargs) (normalize calcP0 : Bool) (y x : List ℚ)
    (hy : y ≠ []) (hx : x ≠ []) (hlen : y.length = x.length)
    (hb : calcP0 = true → bounds = none ∨ ∃ lo hi, bounds = some (lo, hi) ∧
      3 ≤ lo.length ∧ 3 ≤ hi.length)
    (hcf : ∀ a b kw, cf a b kw = .error .runtime ∨ cf a b kw = .error .value ∨
      ∃ p, cf a b kw = .ok p) :
    ∃ r, fit_pixel cf fexp flog bounds config normalize calcP0 y x = .ok r := by
  obtain ⟨a, t, rfl⟩ : ∃ a t, y = a :: t := by
    cases y with
    | nil => exact absurd rfl hy
    | cons a t => exact ⟨a, t, rfl⟩
  unfold fit_pixel
  have step : ∀ y2 : List ℚ, y2 ≠ [] → y2.length = x.length →
      ∃ r, (do
        let kw ← buildKwargs fexp flog bounds config calcP0 y2 x
        match cf x y2 kw with
        | .ok param => pure (some param, y2)
        | .error .runtime => pure (none, y2)
        | .error .value => pure (none, y2)
        | .error e => (.error e : Except PyErr (Option (List ℚ) × List ℚ))) =
        .ok r := by
    intro y2 hy2 hy2len
    obtain ⟨kw, hkw⟩ := buildKwargs_ok fexp flog bounds config calcP0 y2 x hy2 hx hy2len hb
    simp only [bind, Except.bind]
    rw [hkw]
    dsimp only
    rcases hcf x y2 kw with hh | hh | ⟨p, hh⟩ <;> rw [hh] <;> exact ⟨_, rfl⟩
  cases normalize with
  | false =>
    simp only [Bool.false_eq_true, if_false, bind, Except.bind, pure, Except.pure]
    obtain ⟨r, hr⟩ := step (a :: t) (by simp) hlen
    simp only [bind, Except.bind] at hr
    exact ⟨r, hr⟩
  | true =>
    simp only [npMax, bind, Except.bind, if_true]
    have hne : (if t.foldl max a > 0
        then (a :: t).map (fun v => v / t.foldl max a) else a :: t) ≠ [] := by
      split <;> simp
    have hl2 : (if t.foldl max a > 0
        then (a :: t).map (fun v => v / t.foldl max a) else a :: t).length =
        x.length := by
      split <;> simpa using hlen
    obtain ⟨r, hr⟩ := step _ hne hl2
    simp only [bind, Except.bind] at hr
    exact ⟨r, hr⟩

/-- The decay-seed ceiling in `fit_pixel` (`if t2 > 5: t2 = 5`) is the
minimum with 5. -/
lemma clamp5_eq_min (a : ℚ) : (if a > 5 then 5 else a) = min a 5 := by
  rw [min_def]
  by_cases h : a ≤ 5
  · rw [if_pos h, if_neg (not_lt.mpr h)]
  · rw [if_neg h, if_pos (not_le.mp h)]

/-- Value of the initial-guess seed: `[max y, exp(min(-1/slope, 5)), min y]`
with `slope` the least-squares slope of `log(y - min y + 1e-4)` against `x`,
each component clamped into `[lowerᵢ, upperᵢ]` when bounds are given. -/
lemma seedP0_val (fexp flog : ℚ → ℚ) (bounds : Option (List ℚ × List ℚ))
    (y x : List ℚ) (s : ℚ) (hy : y ≠ [])
    (hs : polyfitSlope x (logvals flog (npMinD y) y) = .ok s)
    (hb : bounds = none ∨ ∃ lo hi, bounds = some (lo, hi) ∧
      3 ≤ lo.length ∧ 3 ≤ hi.length) :
    seedP0 fexp flog bounds y x =
      .ok (match bounds with
        | none => [npMaxD y, fexp (min (-1 / s) 5), npMinD y]
        | some (lo, hi) =>
          [min (max (npMaxD y) (lo.getD 0 0)) (hi.getD 0 0),
           min (max (fexp (min (-1 / s) 5)) (lo.getD 1 0)) (hi.getD 1 0),
           min (max (npMinD y) (lo.getD 2 0)) (hi.getD 2 0)]) := by
  obtain ⟨a, t, rfl⟩ : ∃ a t, y = a :: t := by
    cases y with
    | nil => exact absurd rfl hy
    | cons a t => exact ⟨a, t, rfl⟩
  unfold seedP0
  simp only [npMax, npMin, bind, Except.bind]
  rw [show npMinD (a :: t) = t.foldl min a from rfl] at hs
  rw [hs]
  dsimp only
  rw [clamp5_eq_min]
  rcases hb with rfl | ⟨lo, hi, rfl, hlo, hhi⟩
  · rfl
  · dsimp only
    rw [pyIdx_lt lo 0 (by omega), pyIdx_lt lo 1 (by omega),
      pyIdx_lt lo 2 (by omega)]
    dsimp only
    rw [pyIdx_lt hi 0 (by omega), pyIdx_lt hi 1 (by omega),
      pyIdx_lt hi 2 (by omega)]
    rfl

/-- When the caller-supplied options do not themselves carry a `p0` entry,
the `p0` handed to the optimizer is exactly the heuristic seed. -/
lemma buildKwargs_p0 (fexp flog : ℚ → ℚ)
    (bounds : Option (List ℚ × List ℚ)) (config : Option Kwargs)
    (y x : List ℚ) (s : ℚ) (hy : y ≠ [])
    (hs : polyfitSlope x (logvals flog (npMinD y) y) = .ok s)
    (hcfg : config = none ∨ ∃ c, config = some c ∧ c.p0 = none)
    (hb : bounds = none ∨ ∃ lo hi, bounds = some (lo, hi) ∧
      3 ≤ lo.length ∧ 3 ≤ hi.length) :
    ∃ kw, buildKwargs fexp flog bounds config true y x = .ok kw ∧
      kw.p0 = some (match bounds with
        | none => [npMaxD y, fexp (min (-1 / s) 5), npMinD y]
        | some (lo, hi) =>
          [min (max (npMaxD y) (lo.getD 0 0)) (hi.getD 0 0),
           min (max (fexp (min (-1 / s) 5)) (lo.getD 1 0)) (hi.getD 1 0),
           min (max (npMinD y) (lo.getD 2 0)) (hi.getD 2 0)]) := by
  unfold buildKwargs
  rw [seedP0_val fexp flog bounds y x s hy hs hb]
  simp only [if_true, bind, Except.bind, pure, Except.pure]
  rcases hcfg with rfl | ⟨c, rfl, hc⟩
  · cases bounds <;> exact ⟨_, rfl, rfl⟩
  · cases bounds <;> exact ⟨_, rfl, by simp [kwUpdate, Option.orElse, hc]⟩

/-- The call `FittedMap.__call__` returns the *input map unchanged* as its first
component whenever it completes. -/
lemma fittedMapCall_fst (lowp upp : ℚ) (m : List ℚ) (labels : List Nat)
    (out : List ℚ × List (Option ℚ))
    (h : fittedMapCall lowp upp m labels = .ok out) : out.1 = m := by
  unfold fittedMapCall at h
  simp only [bind, Except.bind] at h
  cases hr : refineLoop lowp upp m
      (labels.map (fun (l : Nat) => some ((l : ℚ))))
      (List.range' 1 (labels.foldl max 0)) with
  | error e => rw [hr] at h; cases h
  | ok mk => rw [hr] at h; cases h; rfl

/-- A single-label run of `FittedMap.__call__` completes and returns the
untouched input map together with the final working mask given voxelwise by
`refStep` at the label-1 percentile bounds. -/
lemma fittedMapCall_single (lowp upp : ℚ) (m : List ℚ) (labels : List Nat)
    (low up : ℚ) (hmax : labels.foldl max 0 = 1)
    (hlow : percentile lowp (labelVals m labels 1) = .ok low)
    (hup : percentile upp (labelVals m labels 1) = .ok up) :
    fittedMapCall lowp upp m labels =
      .ok (m, List.zipWith (refStep low up) labels m) := by
  unfold fittedMapCall
  simp only [bind, Except.bind, hmax]
  rw [show List.range' 1 1 = [1] from rfl,
    refineLoop_single lowp upp m labels low up hlow hup]

/-- The head `headD` is unchanged by appending a unit axis to a nonempty shape. -/
lemma headD_append_unit (d : List Nat) (hd : d ≠ []) :
    (d ++ [1]).headD 0 = d.headD 0 := by
  cases d with
  | nil => exact absurd rfl hd
  | cons a t => rfl

/-- A rank mismatch or a leading-axis/time-vector length mismatch makes the
shape phase raise an assertion error. -/
lemma shapePhase_viol (dShape mShape : List Nat) (xl : Nat)
    (h : mShape.length + 1 ≠ dShape.length ∨ dShape.headD 0 ≠ xl) :
    shapePhase dShape mShape xl = .error .assertion := by
  unfold shapePhase
  by_cases hrank : mShape.length + 1 = dShape.length
  · rcases h with h | h
    · exact absurd hrank h
    · rw [if_pos hrank]
      have hdne : dShape ≠ [] := by
        intro hh
        rw [hh] at hrank
        simp at hrank
      have hh : (if mShape.length = 2 then (dShape ++ [1], mShape ++ [1])
          else (dShape, mShape)).1.headD 0 = dShape.headD 0 := by
        split
        · exact headD_append_unit dShape hdne
        · rfl
      rw [if_neg (hh ▸ h)]
  · rw [if_neg hrank]

/-- A rank-correct 2-D mask / 3-D volume pair passing the length check is
promoted to a unit-depth 3-D mask / 4-D volume pair. -/
lemma shapePhase_promote (dShape mShape : List Nat) (xl : Nat)
    (hm : mShape.length = 2) (hrank : mShape.length + 1 = dShape.length)
    (hhead : dShape.headD 0 = xl) :
    shapePhase dShape mShape xl = .ok (dShape ++ [1], mShape ++ [1]) := by
  unfold shapePhase
  rw [if_pos hrank, if_pos hm]
  have hdne : dShape ≠ [] := by
    intro hh
    rw [hh] at hrank
    simp at hrank
  rw [if_pos (by rw [headD_append_unit dShape hdne]; exact hhead)]

/-- A failing reference solve on the corner voxel makes the whole fit fail,
whatever the mask contains. -/
lemma fitFull_ref_error (cf : List ℚ → List ℚ → Kwargs → Except PyErr (List ℚ))
    (ff : List ℚ → List ℚ → List ℚ) (fexp flog : ℚ → ℚ)
    (bounds : Option (List ℚ × List ℚ)) (config : Option Kwargs)
    (normalize : Bool) (numFnParams : Nat) (pools0 : Bool)
    (dShape mShape : List Nat) (vol : List (List ℚ)) (mask : List Bool)
    (x : List ℚ) (minR2 : FVal) (ds : List Nat × List Nat) (e : PyErr)
    (hshape : shapePhase dShape mShape x.length = .ok ds)
    (herr : cf x (vol.getD 0 []) ⟨none, none, none, []⟩ = .error e) :
    fitFull cf ff fexp flog bounds config normalize numFnParams pools0
      dShape mShape vol mask x minR2 = .error e := by
  unfold fitFull fitCore
  simp only [bind, Except.bind]
  rw [hshape]
  dsimp only
  rw [herr]

/-- On success every parameter column of the output has as many entries as
the reference solve on the corner voxel returned. -/
lemma fitFull_k_cols (cf : List ℚ → List ℚ → Kwargs → Except PyErr (List ℚ))
    (ff : List ℚ → List ℚ → List ℚ) (fexp flog : ℚ → ℚ)
    (bounds : Option (List ℚ × List ℚ)) (config : Option Kwargs)
    (normalize : Bool) (numFnParams : Nat) (pools0 : Bool)
    (dShape mShape : List Nat) (vol : List (List ℚ)) (mask : List Bool)
    (x : List ℚ) (minR2 : FVal) (ps : List ℚ)
    (cols : List (List (Option ℚ))) (r2m : List FVal) (st : List (List ℚ))
    (hok : cf x (vol.getD 0 []) ⟨none, none, none, []⟩ = .ok ps)
    (h : fitFull cf ff fexp flog bounds config normalize numFnParams pools0
      dShape mShape vol mask x minR2 = .ok (cols, r2m, st)) :
    ∀ c ∈ cols, c.length = ps.length := by
  unfold fitFull at h
  simp only [bind, Except.bind] at h
  cases hshape : shapePhase dShape mShape x.length with
  | error e => rw [hshape] at h; cases h
  | ok ds =>
    rw [hshape] at h
    dsimp only at h
    unfold fitCore at h
    simp only [bind, Except.bind] at h
    rw [hok] at h
    dsimp only at h
    have hrep : ∀ c ∈ List.replicate mask.length
        (List.replicate ps.length (none : Option ℚ)), c.length = ps.length := by
      intro c hc
      rw [List.eq_of_mem_replicate hc]
      exact List.length_replicate _ _
    cases pools0 with
    | true =>
      simp only [if_true] at h
      cases hseq : solveSeq (fun y => fit_pixel cf fexp flog bounds config
          normalize (calcP0Flag numFnParams) y x) vol (maskedIdxs mask) with
      | error e => rw [hseq] at h; cases h
      | ok pr =>
        rw [hseq] at h
        dsimp only at h
        cases h
        exact aggregate_cols_length ff normalize minR2 ps.length x _ _ _ _ hrep
    | false =>
      simp only [Bool.false_eq_true, if_false] at h
      cases hpar : solvePar (fun y => fit_pixel cf fexp flog bounds config
          normalize (calcP0Flag numFnParams) y x) vol (maskedIdxs mask) with
      | error e => rw [hpar] at h; cases h
      | ok rs =>
        rw [hpar] at h
        simp only [pure, Except.pure] at h
        cases h
        exact aggregate_cols_length ff normalize minR2 ps.length x _ _ _ _ hrep

/-- The caller's volume cell is unchanged by a completed fit: the engine
works on the `astype` copy. -/
lemma fitWithMem_caller (cf : List ℚ → List ℚ → Kwargs → Except PyErr (List ℚ))
    (ff : List ℚ → List ℚ → List ℚ) (fexp flog : ℚ → ℚ)
    (bounds : Option (List ℚ × List ℚ)) (config : Option Kwargs)
    (normalize : Bool) (numFnParams : Nat) (pools0 : Bool)
    (dShape mShape : List Nat) (vol : List (List ℚ)) (mask : List Bool)
    (x : List ℚ) (minR2 : FVal)
    (out : List (List (Option ℚ)) × List FVal) (mem : Mem)
    (h : fitWithMem cf ff fexp flog bounds config normalize numFnParams
      pools0 dShape mShape vol mask x minR2 = .ok (out, mem)) :
    mem.caller = vol := by
  unfold fitWithMem at h
  cases hr : fitFull cf ff fexp flog bounds config normalize numFnParams
      pools0 dShape mShape vol mask x minR2 with
  | error e => rw [hr] at h; cases h
  | ok t =>
    rw [hr] at h
    obtain ⟨c, r, st⟩ := t
    cases h
    rfl

/-- Claim C1, counterexample.  One masked voxel with series `[1, -1]`, a
solver returning the parameter vector `[0]`, the all-zero model and
`min_r2 = 0`: the computed R² is exactly 0, so R² ≥ min_r2 holds and the
claim predicts the parameter is written; the engine nevertheless leaves the
parameter map NaN (`none`) while storing R² = 0, because the source gate is
the strict `r2_map[i,j,k] > min_r2`. -/
theorem C1_counterexample :
    fitCore cfOk0 ffZero id id none none false 1 false [[1, -1]] [true]
        [0, 1] (.fin 0) = .ok ([[none]], [.fin 0], [[1, -1]]) ∧
      (0 : ℚ) ≥ 0 :=
  ⟨by with_unfolding_all rfl, le_refl 0⟩

/-- Claim C1, amended.  In the single-threaded aggregation, a voxel whose
solve returned a parameter vector has its k parameters written into the
parameter maps if and only if the computed R² is **strictly greater** than
`min_r2` (Python float `>`); when the gate fails the parameters stay NaN
while the computed R² is still stored in the R² map. -/
theorem C1_strict_gate (ff : List ℚ → List ℚ → List ℚ) (normalize : Bool)
    (minR2 : FVal) (k : Nat) (x : List ℚ)
    (prs : List (Nat × Option (List ℚ))) (st : List (List ℚ))
    (r2m : List FVal) (cols : List (List (Option ℚ))) (i : Nat)
    (param : List ℚ)
    (hnd : (prs.map Prod.fst).Nodup) (hmem : (i, some param) ∈ prs)
    (hr : i < r2m.length) (hc : i < cols.length)
    (hcols : cols.getD i [] = List.replicate k none)
    (hk : param.length = k) :
    (aggregate ff normalize minR2 k x prs st r2m cols).1.getD i (.fin 0) =
      (calculate_r2 ff normalize (st.getD i []) param x).1 ∧
    (aggregate ff normalize minR2 k x prs st r2m cols).2.1.getD i [] =
      (if FVal.fgt (calculate_r2 ff normalize (st.getD i []) param x).1 minR2
       then param.map some else List.replicate k none) := by
  subst hk
  obtain ⟨h1, h2⟩ := aggregate_char ff normalize minR2 param.length x prs
    st r2m cols i param hnd hmem hr hc
  refine ⟨h1, ?_⟩
  rw [h2, hcols, range_map_get]

/-- Claim C1 witness: one voxel, solver result `[3]`, `min_r2 = -inf`: the
R² 0 passes the strict gate and `[some 3]` is written; the R² map records
0. -/
theorem C1_strict_gate_witness :
    (aggregate ffZero false .ninf 1 [0, 1] [(0, some [3])] [[1, -1]]
        [.fin 0] [[none]]).1.getD 0 (.fin 0) =
      (calculate_r2 ffZero false [1, -1] [3] [0, 1]).1 ∧
    (aggregate ffZero false .ninf 1 [0, 1] [(0, some [3])] [[1, -1]]
        [.fin 0] [[none]]).2.1.getD 0 [] =
      (if FVal.fgt (calculate_r2 ffZero false [1, -1] [3] [0, 1]).1 .ninf
       then [3].map some else List.replicate 1 none) :=
  C1_strict_gate ffZero false .ninf 1 [0, 1] [(0, some [3])] [[1, -1]]
    [.fin 0] [[none]] 0 [3] (by decide) (by simp) (by decide) (by decide)
    (by with_unfolding_all rfl) (by decide)

/-- Claim C4: a voxel whose fit succeeded numerically but whose R²
evaluates to a non-finite value (e.g. SS_tot = 0 for constant y) fails the
quality gate for every threshold — its parameters remain NaN in the
parameter maps — while the non-finite R² value is still recorded in the R²
map (the strict float `>` is false on NaN and -inf). -/
theorem C4_nonfinite_gate (ff : List ℚ → List ℚ → List ℚ) (normalize : Bool)
    (minR2 : FVal) (k : Nat) (x : List ℚ)
    (prs : List (Nat × Option (List ℚ))) (st : List (List ℚ))
    (r2m : List FVal) (cols : List (List (Option ℚ))) (i : Nat)
    (param : List ℚ)
    (hnd : (prs.map Prod.fst).Nodup) (hmem : (i, some param) ∈ prs)
    (hr : i < r2m.length) (hc : i < cols.length)
    (hcols : cols.getD i [] = List.replicate k none)
    (hnf : FVal.nonFinite
      ((calculate_r2 ff normalize (st.getD i []) param x).1) = true) :
    (aggregate ff normalize minR2 k x prs st r2m cols).1.getD i (.fin 0) =
      (calculate_r2 ff normalize (st.getD i []) param x).1 ∧
    (aggregate ff normalize minR2 k x prs st r2m cols).2.1.getD i [] =
      List.replicate k none := by
  obtain ⟨h1, h2⟩ := aggregate_char ff normalize minR2 k x prs
    st r2m cols i param hnd hmem hr hc
  have hnp : (calculate_r2 ff normalize (st.getD i []) param x).1 ≠ .pinf :=
    get_r2_not_pinf _ _
  rw [fgt_of_nonfinite _ minR2 hnf hnp] at h2
  simp only [Bool.false_eq_true, if_false] at h2
  exact ⟨h1, h2.trans hcols⟩

/-- Claim C4 witness: the constant series `[1, 1]` has SS_tot = 0 and
SS_res > 0 against the zero model, so R² = -inf is recorded while the
parameter column stays NaN even with `min_r2 = -inf`. -/
theorem C4_nonfinite_gate_witness :
    ((aggregate ffZero false .ninf 1 [0, 1] [(0, some [0])] [[1, 1]]
        [.fin 0] [[none]]).1.getD 0 (.fin 0) =
      (calculate_r2 ffZero false [1, 1] [0] [0, 1]).1 ∧
    (aggregate ffZero false .ninf 1 [0, 1] [(0, some [0])] [[1, 1]]
        [.fin 0] [[none]]).2.1.getD 0 [] = List.replicate 1 none) ∧
    (calculate_r2 ffZero false [1, 1] [0] [0, 1]).1 = .ninf :=
  ⟨C4_nonfinite_gate ffZero false .ninf 1 [0, 1] [(0, some [0])] [[1, 1]]
    [.fin 0] [[none]] 0 [0] (by decide) (by simp) (by decide) (by decide)
    (by with_unfolding_all rfl) (by with_unfolding_all rfl),
   by with_unfolding_all rfl⟩

/-- Claim C3, counterexample.  The initial-guess block sits *outside* the
`try/except` around `curve_fit`, so its exceptions propagate out of
`fit_pixel` instead of becoming the FAILURE sentinel — even though the
optimizer (here a solver that always succeeds) is never reached.  Two
concrete escapes: with the heuristic enabled and bounds whose lower
sequence has fewer than three entries, the seed clamping indexes
`bounds[0][1]` and raises `IndexError`; and with a series shorter than the
time vector, `np.polyfit` raises `TypeError` ("expected x and y to have
same length"). -/
theorem C3_counterexample :
    fit_pixel cfOk0 id id (some ([0], [1])) none false true [1, 2] [0, 1] =
        .error .index ∧
      fit_pixel cfOk0 id id none none false true [1, 2] [0, 1, 2] =
        .error .typeErr :=
  ⟨by with_unfolding_all rfl, by with_unfolding_all rfl⟩

/-- Claim C3, amended.  `fit_pixel` returns a parameter vector or the
FAILURE sentinel — never an exception — provided the series and time vector
are nonempty and of equal length (the engine always pairs a voxel's full
series with the full time vector), the bounds (when the heuristic is
enabled and bounds are given) carry at least three lower and three upper
entries, and the optimizer itself only fails with `RuntimeError` or
`ValueError` (the two classes the `except` clause catches); exceptions
outside that protected call — the seed clamping's `IndexError`, or
`np.polyfit`'s `TypeError` on mismatched lengths — propagate. -/
theorem C3_failure_is_sentinel
    (cf : List ℚ → List ℚ → Kwargs → Except PyErr (List ℚ))
    (fexp flog : ℚ → ℚ) (bounds : Option (List ℚ × List ℚ))
    (config : Option Kwargs) (normalize calcP0 : Bool) (y x : List ℚ)
    (hy : y ≠ []) (hx : x ≠ []) (hlen : y.length = x.length)
    (hb : calcP0 = true → bounds = none ∨ ∃ lo hi, bounds = some (lo, hi) ∧
      3 ≤ lo.length ∧ 3 ≤ hi.length)
    (hcf : ∀ a b kw, cf a b kw = .error .runtime ∨
      cf a b kw = .error .value ∨ ∃ p, cf a b kw = .ok p) :
    ∃ r, fit_pixel cf fexp flog bounds config normalize calcP0 y x = .ok r :=
  fit_pixel_total cf fexp flog bounds config normalize calcP0 y x hy hx hlen
    hb hcf

/-- Claim C3 witness: a never-converging optimizer (always `RuntimeError`)
with the heuristic on, no bounds, and normalization produces the FAILURE
sentinel rather than an exception. -/
theorem C3_failure_is_sentinel_witness :
    ∃ r, fit_pixel cfFail id id none none true true [1, 2] [0, 1] =
      .ok r :=
  C3_failure_is_sentinel cfFail id id none none true true [1, 2] [0, 1]
    (by decide) (by decide) (by decide) (fun _ => Or.inl rfl)
    (fun _ _ _ => Or.inl rfl)

/-- Claim C2, counterexample.  Map `[10, 20]` with two labeled regions
(labels `[1, 2]`): after label 1 the working mask holds map values rather
than labels, so label 2 matches no voxel, `np.percentile` is applied to an
empty selection and raises — the call does not return the claimed
NaN-masked map at all. -/
theorem C2_counterexample :
    fittedMapCall 5 95 [10, 20] [1, 2] = .error .value := by
  with_unfolding_all rfl

/-- Claim C2, amended.  `FittedMap.__call__` folds labels 1..L over an
evolving working mask, but (i) the map component it returns is the
*untouched* input map whenever the call completes, and (ii) on a
single-label mask the final working-mask component is given voxelwise by
`refStep`: out-of-region voxels and in-region voxels failing the percentile
thresholds (or with value 0) become NaN, surviving voxels carry their
int16-cast map value. -/
theorem C2_refiner_behavior :
    (∀ lowp upp m labels out,
       fittedMapCall lowp upp m labels = .ok out → out.1 = m) ∧
    (∀ lowp upp m labels low up, labels.foldl max 0 = 1 →
       percentile lowp (labelVals m labels 1) = .ok low →
       percentile upp (labelVals m labels 1) = .ok up →
       fittedMapCall lowp upp m labels =
         .ok (m, List.zipWith (refStep low up) labels m)) :=
  ⟨fittedMapCall_fst, fittedMapCall_single⟩

/-- Claim C2 witness: single-label mask `[1, 0]` on map `[3, 7]`: both
percentiles of the region values are 3, the call completes, returns the
untouched map, and the working mask keeps 3 and drops the out-of-region 7. -/
theorem C2_refiner_behavior_witness :
    fittedMapCall 5 95 [3, 7] [1, 0] = .ok ([3, 7], [some 3, none]) :=
  (C2_refiner_behavior.2 5 95 [3, 7] [1, 0] 3 3 (by decide)
    (by with_unfolding_all rfl) (by with_unfolding_all rfl)).trans
    (by with_unfolding_all rfl)

/-- Claim C5, counterexample.  `kwargs.update(config)` lets caller-supplied
solver options override the heuristic seed: with options carrying
`p0 = [7]`, the optimizer receives `[7]` (observed by a probing solver that
returns the `p0` it was handed), not the heuristic seed `[2, -1, 1]` that
the guess block computes for this input. -/
theorem C5_counterexample :
    fit_pixel cfProbe id id none (some ⟨none, some [7], none, []⟩) false true
        [1, 2] [0, 1] = .ok (some [7], [1, 2]) ∧
      seedP0 id id none [1, 2] [0, 1] = .ok [2, -1, 1] ∧
      ([7] : List ℚ) ≠ [2, -1, 1] :=
  ⟨by with_unfolding_all rfl, by with_unfolding_all rfl, by decide⟩

/-- Claim C5, amended.  The heuristic is enabled exactly when the model has
3 parameters; and provided the caller's solver options (when given) do not
themselves carry a `p0` entry, the seed passed to the optimizer is
`[max y, exp(min(-1/slope, 5)), min y]` — `slope` being the
ordinary-least-squares slope of `log(y - min y + 1e-4)` against `x`
(assumed nonzero; at slope 0 the float division produces -inf and a zero
seed) — with each component clamped into `[lowerᵢ, upperᵢ]` when bounds are
given. -/
theorem C5_seed_formula :
    (∀ nfp, calcP0Flag nfp = true ↔ nfp = 3) ∧
    (∀ (fexp flog : ℚ → ℚ) (bounds : Option (List ℚ × List ℚ))
       (config : Option Kwargs) (y x : List ℚ) (s : ℚ), y ≠ [] → s ≠ 0 →
       polyfitSlope x (logvals flog (npMinD y) y) = .ok s →
       (config = none ∨ ∃ c, config = some c ∧ c.p0 = none) →
       (bounds = none ∨ ∃ lo hi, bounds = some (lo, hi) ∧
         3 ≤ lo.length ∧ 3 ≤ hi.length) →
       ∃ kw, buildKwargs fexp flog bounds config true y x = .ok kw ∧
         kw.p0 = some (match bounds with
           | none => [npMaxD y, fexp (min (-1 / s) 5), npMinD y]
           | some (lo, hi) =>
             [min (max (npMaxD y) (lo.getD 0 0)) (hi.getD 0 0),
              min (max (fexp (min (-1 / s) 5)) (lo.getD 1 0)) (hi.getD 1 0),
              min (max (npMinD y) (lo.getD 2 0)) (hi.getD 2 0)])) :=
  ⟨fun nfp => by simp [calcP0Flag],
   fun fexp flog bounds config y x s hy _ hs hcfg hb => by
     cases bounds with
     | none =>
       exact buildKwargs_p0 fexp flog none config y x s hy hs hcfg
         (Or.inl rfl)
     | some b =>
       rcases hb with h | ⟨lo, hi, heq, hlo, hhi⟩
       · simp at h
       · obtain rfl : b = (lo, hi) := Option.some.inj heq
         exact buildKwargs_p0 fexp flog (some (lo, hi)) config y x s hy hs
           hcfg (Or.inr ⟨lo, hi, rfl, hlo, hhi⟩)⟩

/-- Claim C5 witness: for `y = [1, 2]`, `x = [0, 1]` (slope 1) with no
bounds and no options, the optimizer's `p0` is the heuristic seed
`[max y, exp(-1), min y]` (here `exp = id` gives `[2, -1, 1]`). -/
theorem C5_seed_formula_witness :
    ∃ kw, buildKwargs id id none none true [1, 2] [0, 1] = .ok kw ∧
      kw.p0 = some [2, -1, 1] := by
  obtain ⟨kw, h1, h2⟩ := C5_seed_formula.2 id id none none [1, 2] [0, 1] 1
    (by decide) (by decide) (by with_unfolding_all rfl) (Or.inl rfl)
    (Or.inl rfl)
  exact ⟨kw, h1, by rw [h2]; with_unfolding_all rfl⟩

/-- Claim C6, counterexample.  For `y = [-2, -4]` (max -2 ≤ 0) against the
constant-1 model, the source's evaluator divides `y` by its max with no
positivity guard and reports R² = -1, while the claimed fit-time
normalization (a no-op for max ≤ 0) yields R² = -16: the two disagree. -/
theorem C6_counterexample :
    (calculate_r2 ffOne true [-2, -4] [] [0, 1]).1 = .fin (-1) ∧
      specScore ffOne true [-2, -4] [] [0, 1] = .fin (-16) ∧
      FVal.fin (-1) ≠ FVal.fin (-16) :=
  ⟨by with_unfolding_all rfl, by with_unfolding_all rfl, by decide⟩

/-- Claim C6, amended.  The evaluator returns
`R² = 1 - SS_res/SS_tot` with residuals `y - model(x, params)`, but when
`normalize` is set it divides `y` by its max *unconditionally* (unlike fit
time, which skips the division for max ≤ 0); the evaluator agrees with the
claimed guarded rescaling exactly when `normalize` is off or the max is
positive. -/
theorem C6_score_guard (ff : List ℚ → List ℚ → List ℚ) (normalize : Bool)
    (y param x : List ℚ) (h : normalize = false ∨ 0 < npMaxD y) :
    (calculate_r2 ff normalize y param x).1 =
      specScore ff normalize y param x := by
  rcases h with rfl | h
  · rfl
  · cases normalize with
    | false => rfl
    | true => simp only [calculate_r2, specScore, if_pos h, if_true]

/-- Claim C6 witness: with a positive max (`y = [1, 2]`), evaluator and
claimed guarded rescaling agree. -/
theorem C6_score_guard_witness :
    (calculate_r2 ffOne true [1, 2] [] [0, 1]).1 =
      specScore ffOne true [1, 2] [] [0, 1] :=
  C6_score_guard ffOne true [1, 2] [] [0, 1]
    (Or.inr (by with_unfolding_all rfl))

/-- Claim C7: a rank mismatch between mask and volume, or a volume whose
leading-axis length differs from `len(x)`, makes `fit` raise an assertion
error before any voxel work, with no output produced; and a rank-correct
2-D mask / 3-D volume pair passing the length check is first promoted to a
unit-depth 3-D / 4-D pair, so the internal logic operates in 3-D. -/
theorem C7_shape_preconditions
    (cf : List ℚ → List ℚ → Kwargs → Except PyErr (List ℚ))
    (ff : List ℚ → List ℚ → List ℚ) (fexp flog : ℚ → ℚ)
    (bounds : Option (List ℚ × List ℚ)) (config : Option Kwargs)
    (normalize : Bool) (numFnParams : Nat) (pools0 : Bool)
    (dShape mShape : List Nat) (vol : List (List ℚ)) (mask : List Bool)
    (x : List ℚ) (minR2 : FVal) :
    (mShape.length + 1 ≠ dShape.length ∨ dShape.headD 0 ≠ x.length →
       fitFull cf ff fexp flog bounds config normalize numFnParams pools0
         dShape mShape vol mask x minR2 = .error .assertion) ∧
    (mShape.length = 2 → mShape.length + 1 = dShape.length →
       dShape.headD 0 = x.length →
       shapePhase dShape mShape x.length =
         .ok (dShape ++ [1], mShape ++ [1])) := by
  constructor
  · intro h
    unfold fitFull
    simp only [bind, Except.bind]
    rw [shapePhase_viol dShape mShape x.length h]
  · exact shapePhase_promote dShape mShape x.length

/-- Claim C7 witness: a rank-3 mask against a rank-3 volume trips the rank
assertion; a 2-D mask / 3-D volume pair with matching leading axis is
promoted. -/
theorem C7_shape_preconditions_witness :
    fitFull cfOk0 ffZero id id none none false 1 false [2, 3, 3] [3, 3, 3]
        [] [] [0, 1] .ninf = .error .assertion ∧
      shapePhase [2, 3, 3] [3, 3] 2 = .ok ([2, 3, 3, 1], [3, 3, 1]) :=
  ⟨(C7_shape_preconditions cfOk0 ffZero id id none none false 1 false
      [2, 3, 3] [3, 3, 3] [] [] [0, 1] .ninf).1 (Or.inl (by decide)),
   (C7_shape_preconditions cfOk0 ffZero id id none none false 1 false
      [2, 3, 3] [3, 3] [] [] [0, 1] .ninf).2 (by decide) (by decide)
      (by decide)⟩

/-- Claim C8: for a fixed input the engine's output pair (parameter maps,
R² map) is identical between the `pools = 0` sequential in-process path and
the worker-pool path (and the pool path is one and the same function for
every pool size N > 0, since `starmap` collects results in submission
order): dispatch does not affect the numeric output. -/
theorem C8_pool_independence
    (cf : List ℚ → List ℚ → Kwargs → Except PyErr (List ℚ))
    (ff : List ℚ → List ℚ → List ℚ) (fexp flog : ℚ → ℚ)
    (bounds : Option (List ℚ × List ℚ)) (config : Option Kwargs)
    (normalize : Bool) (numFnParams : Nat)
    (dShape mShape : List Nat) (vol : List (List ℚ)) (mask : List Bool)
    (x : List ℚ) (minR2 : FVal)
    (hlen : mask.length ≤ vol.length) :
    (fitFull cf ff fexp flog bounds config normalize numFnParams true
        dShape mShape vol mask x minR2).map (fun t => (t.1, t.2.1)) =
      (fitFull cf ff fexp flog bounds config normalize numFnParams false
        dShape mShape vol mask x minR2).map (fun t => (t.1, t.2.1)) := by
  unfold fitFull
  simp only [bind, Except.bind]
  cases hs : shapePhase dShape mShape x.length with
  | error e => rfl
  | ok ds =>
    exact fitCore_pools cf ff fexp flog bounds config normalize numFnParams
      vol mask x minR2 hlen

/-- Claim C8 witness: a concrete one-voxel normalized fit gives the same
(parameter maps, R² map) pair on the sequential and pooled paths. -/
theorem C8_pool_independence_witness :
    (fitFull cfOk0 ffZero id id none none true 1 true [2, 1, 1, 1]
        [1, 1, 1] [[1, 2]] [true] [0, 1] .ninf).map (fun t => (t.1, t.2.1)) =
      (fitFull cfOk0 ffZero id id none none true 1 false [2, 1, 1, 1]
        [1, 1, 1] [[1, 2]] [true] [0, 1] .ninf).map
          (fun t => (t.1, t.2.1)) :=
  C8_pool_independence cfOk0 ffZero id id none none true 1 [2, 1, 1, 1]
    [1, 1, 1] [[1, 2]] [true] [0, 1] .ninf (by decide)

/-- Claim C9: after the shape phase, the engine establishes the parameter
count by a bare reference `curve_fit` on the corner voxel `(0,0,0)` — no
bounds, no initial guess, no caller options in its keyword dictionary —
regardless of the mask; if that single solve raises, the whole fit call
fails with that exception before any masked voxel is processed, and when it
succeeds every parameter column of the output has exactly as many entries
as the reference solve returned. -/
theorem C9_reference_solve
    (cf : List ℚ → List ℚ → Kwargs → Except PyErr (List ℚ))
    (ff : List ℚ → List ℚ → List ℚ) (fexp flog : ℚ → ℚ)
    (bounds : Option (List ℚ × List ℚ)) (config : Option Kwargs)
    (normalize : Bool) (numFnParams : Nat) (pools0 : Bool)
    (dShape mShape : List Nat) (vol : List (List ℚ)) (mask : List Bool)
    (x : List ℚ) (minR2 : FVal) (ds : List Nat × List Nat)
    (hshape : shapePhase dShape mShape x.length = .ok ds) :
    (∀ e, cf x (vol.getD 0 []) ⟨none, none, none, []⟩ = .error e →
       fitFull cf ff fexp flog bounds config normalize numFnParams pools0
         dShape mShape vol mask x minR2 = .error e) ∧
    (∀ ps cols r2m st,
       cf x (vol.getD 0 []) ⟨none, none, none, []⟩ = .ok ps →
       fitFull cf ff fexp flog bounds config normalize numFnParams pools0
         dShape mShape vol mask x minR2 = .ok (cols, r2m, st) →
       ∀ c ∈ cols, c.length = ps.length) :=
  ⟨fun e he => fitFull_ref_error cf ff fexp flog bounds config normalize
      numFnParams pools0 dShape mShape vol mask x minR2 ds e hshape he,
   fun ps cols r2m st hok h => fitFull_k_cols cf ff fexp flog bounds config
      normalize numFnParams pools0 dShape mShape vol mask x minR2 ps cols
      r2m st hok h⟩

/-- Claim C9 witness: a solver that fails exactly on the bare reference
call (recognized by its empty keyword dictionary) aborts the whole fit with
`RuntimeError`, although the mask excludes the corner voxel. -/
theorem C9_reference_solve_witness :
    fitFull cfRefFail ffZero id id none none false 1 false [2, 1, 1, 2]
        [1, 1, 2] [[1, 2], [3, 4]] [false, true] [0, 1] .ninf =
      .error .runtime :=
  (C9_reference_solve cfRefFail ffZero id id none none false 1 false
      [2, 1, 1, 2] [1, 1, 2] [[1, 2], [3, 4]] [false, true] [0, 1] .ninf
      ([2, 1, 1, 2], [1, 1, 2]) (by with_unfolding_all rfl)).1 .runtime
    (by with_unfolding_all rfl)

/-- Claim C10, counterexample.  A normalized `pools = 0` fit on the caller
volume `[[2, 4]]`: the in-place divisions land in the engine's
`astype("float64")` copy (final engine state `[[1/2, 1]]`), while the
caller's volume cell is unchanged — the claim that the caller's input
volume is mutated is false. -/
theorem C10_counterexample :
    fitWithMem cfOk0 ffZero id id none none true 1 true [2, 1, 1, 2]
        [1, 1, 2] [[2, 4]] [true] [0, 1] .ninf =
      .ok (([[some 0]], [.fin (-9)]),
        ⟨[[2, 4]], [[1 / 2, 1]]⟩) ∧
      ([[(1 : ℚ) / 2, 1]] ≠ [[(2 : ℚ), 4]]) :=
  ⟨by with_unfolding_all rfl, by norm_num⟩

/-- Claim C10, amended.  The Solver (and, on success voxels, the Evaluator)
really does divide the voxel series in place — for a normalized
`fit_pixel` success with positive max, the stored series is `y / max y` —
but those writes go through views of the engine's `astype("float64")`
copy, so the caller's input volume is unchanged by every completed fit
call. -/
theorem C10_mutation_hits_copy :
    (∀ (cf : List ℚ → List ℚ → Kwargs → Except PyErr (List ℚ))
       (ff : List ℚ → List ℚ → List ℚ) (fexp flog : ℚ → ℚ)
       (bounds : Option (List ℚ × List ℚ)) (config : Option Kwargs)
       (normalize : Bool) (numFnParams : Nat) (pools0 : Bool)
       (dShape mShape : List Nat) (vol : List (List ℚ)) (mask : List Bool)
       (x : List ℚ) (minR2 : FVal)
       (out : List (List (Option ℚ)) × List FVal) (mem : Mem),
       fitWithMem cf ff fexp flog bounds config normalize numFnParams
         pools0 dShape mShape vol mask x minR2 = .ok (out, mem) →
       mem.caller = vol) ∧
    (∀ (cf : List ℚ → List ℚ → Kwargs → Except PyErr (List ℚ))
       (fexp flog : ℚ → ℚ) (bounds : Option (List ℚ × List ℚ))
       (config : Option Kwargs) (calcP0 : Bool) (y x : List ℚ)
       (pr : Option (List ℚ) × List ℚ), 0 < npMaxD y →
       fit_pixel cf fexp flog bounds config true calcP0 y x = .ok pr →
       pr.2 = y.map (fun v => v / npMaxD y)) := by
  constructor
  · intro cf ff fexp flog bounds config normalize numFnParams pools0
      dShape mShape vol mask x minR2 out mem h
    exact fitWithMem_caller cf ff fexp flog bounds config normalize
      numFnParams pools0 dShape mShape vol mask x minR2 out mem h
  · intro cf fexp flog bounds config calcP0 y x pr hpos h
    have := fit_pixel_snd cf fexp flog bounds config true calcP0 y x pr h
    rw [this]
    unfold mutY
    rw [if_pos rfl, if_pos hpos]

/-- Claim C10 witness: on the counterexample run the caller cell is the
original volume, and the solver's in-place normalization of `[2, 4]` is
`[1/2, 1]`. -/
theorem C10_mutation_hits_copy_witness :
    (Mem.mk [[2, 4]] [[1 / 2, 1]]).caller = [[2, 4]] ∧
      ((some [0], [(1 : ℚ) / 2, 1]) : Option (List ℚ) × List ℚ).2 =
        [2, 4].map (fun v => v / npMaxD [2, 4]) :=
  ⟨C10_mutation_hits_copy.1 cfOk0 ffZero id id none none true 1 true
      [2, 1, 1, 2] [1, 1, 2] [[2, 4]] [true] [0, 1] .ninf
      ([[some 0]], [.fin (-9)]) (Mem.mk [[2, 4]] [[1 / 2, 1]])
      (by with_unfolding_all rfl),
   C10_mutation_hits_copy.2 cfOk0 id id none none true [2, 4] [0, 1]
      (some [0], [1 / 2, 1]) (by with_unfolding_all rfl)
      (by with_unfolding_all rfl)⟩
